import Mathlib

/-!
Verification of the servnt static-asset server (src/main.rs).

Paths are modelled the way Rust's std::path treats them on Unix: a path
string parses into a list of components, where parsing splits on the
separator, drops empty segments, keeps a "." segment only at the very
beginning of a relative path, and turns ".." into a parent-directory
component.  Rust's Path equality, strip_prefix, starts_with and join are
all defined on components, so a component list is the faithful carrier for
every path operation the program performs.  The filesystem call
canonicalize is an external effect; it is modelled as an explicit
parameter fs mapping a path to its canonical form or to an io error.
-/

inductive Component where
  | rootDir
  | curDir
  | parentDir
  | normal (s : String)
  deriving DecidableEq

abbrev RPath := List Component

/-- Raw slash-separated chunks of a character list, in order, empty chunks
included (splitting "a//b" gives ["a", "", "b"]). -/
def rawSegs : List Char → List (List Char)
  | [] => [[]]
  | c :: cs =>
    if c = '/' then [] :: rawSegs cs
    else
      match rawSegs cs with
      | [] => [[c]]
      | s :: rest => (c :: s) :: rest

/-- The nonempty slash-separated segments of a character list. -/
def segsOf (cs : List Char) : List (List Char) :=
  (rawSegs cs).filter (fun s => decide (s ≠ []))

/-- A non-"." segment as a Rust path component: ".." is ParentDir,
everything else is a Normal component. -/
def mkComp (s : List Char) : Component :=
  if s = ['.', '.'] then Component.parentDir else Component.normal (String.mk s)

/-- Rust Path::components on Unix: a leading separator yields RootDir;
"." segments are dropped except a leading "." of a relative path, which is
CurDir; ".." segments are ParentDir; empty segments (repeated separators,
trailing separator) are dropped. -/
def parseComps (cs : List Char) : List Component :=
  match cs with
  | '/' :: _ =>
    Component.rootDir ::
      ((segsOf cs).filter (fun s => decide (s ≠ ['.']))).map mkComp
  | _ =>
    match segsOf cs with
    | [] => []
    | s :: rest =>
      (if s = ['.'] then Component.curDir else mkComp s) ::
        ((rest.filter (fun s => decide (s ≠ ['.']))).map mkComp)

def parsePath (s : String) : RPath := parseComps s.toList

/-- Rust's component iterator never yields a leading CurDir after being
appended to a nonempty path, mirrored here when modelling join. -/
def dropHeadCur : RPath → RPath
  | Component.curDir :: rest => rest
  | p => p

/-- Rust PathBuf::push / Path::join: an absolute right-hand side replaces
the left-hand side entirely; pushing onto an empty path yields the
right-hand side; otherwise the components are concatenated (a leading "."
of the pushed path is no longer at the beginning, so it is dropped). -/
def joinC (a b : RPath) : RPath :=
  if b.head? = some Component.rootDir then b
  else if a = [] then b
  else a ++ dropHeadCur b

/-- Rust Path::strip_prefix: iterates the components of the prefix and of
the path together; succeeds with the remaining components when every
prefix component matches. -/
def stripPrefixC : RPath → RPath → Option RPath
  | rest, [] => some rest
  | [], _ :: _ => none
  | c :: rest, d :: ps => if d = c then stripPrefixC rest ps else none

/-- First-match lookup in an association list, the analogue of
HashMap::get for the maps the program builds (whose keys stay unique). -/
def lookupAssoc : List (String × String) → String → Option String
  | [], _ => none
  | (k, v) :: rest, e => if k = e then some v else lookupAssoc rest e

/-- HashMap::insert: replaces the value when the key is present, otherwise
adds the binding. -/
def insertAssoc (l : List (String × String)) (k v : String) :
    List (String × String) :=
  if l.any (fun q => decide (q.1 = k)) then
    l.map (fun q => if q.1 = k then (k, v) else q)
  else l ++ [(k, v)]

/-- The last binding of a key in an association list (the binding a
sequence of HashMap::insert calls would leave in place). -/
def lookupLast (l : List (String × String)) (k : String) : Option String :=
  lookupAssoc l.reverse k

/-- src/main.rs default_extension_content_types. -/
def default_extension_content_types : List (String × String) :=
  [("html", "text/html"), ("png", "image/png"),
   ("ico", "image/vnd.microsoft.icon"),
   ("webmanifest", "application/manifest+json")]

/-- src/main.rs FileError; ioError carries the underlying io::Error. -/
inductive FileError (ε : Type) where
  | ioError (e : ε)
  | unknownExtension
  deriving DecidableEq

/-- Rust's split_file_at_dot, extension part: None for "..", None when the
name has no '.', None when the only '.' is the leading character, and
otherwise the characters after the last '.'. -/
def extensionOfName (name : String) : Option String :=
  if name.toList = ['.', '.'] then none
  else if '.' ∈ name.toList then
    if (name.toList.reverse.dropWhile (fun c => decide (c ≠ '.'))).drop 1 = []
    then none
    else some (String.mk
      (name.toList.reverse.takeWhile (fun c => decide (c ≠ '.'))).reverse)
  else none

/-- Rust Path::file_name: the last component when it is a Normal
component, and None otherwise. -/
def pathFileName (p : RPath) : Option String :=
  match p.getLast? with
  | some (Component.normal s) => some s
  | _ => none

/-- Rust Path::extension: the extension of the file name. -/
def pathExtension (p : RPath) : Option String :=
  (pathFileName p).bind extensionOfName

/-- src/main.rs AppInfo (informational only). -/
structure AppInfo where
  name : String
  version : String
  deriving DecidableEq

/-- src/main.rs AppPaths; the HashMap of mapped paths is carried as a list
of pairs whose order stands for the (unspecified) iteration order. -/
structure AppPaths where
  base : String
  mapped : List (String × String)
  deriving DecidableEq

/-- src/main.rs ServntFile. -/
structure ServntFile where
  app : AppInfo
  extensions : List (String × String)
  paths : AppPaths
  deriving DecidableEq

/-- src/main.rs ServntState. -/
structure ServntState where
  extension_content_types : List (String × String)
  full_base_path : RPath
  mapped_paths : List (String × RPath)
  deriving DecidableEq

/-- The loop of ServntState::new over servnt_file.paths.mapped: join each
target onto cwd, canonicalize it, and propagate the first io error. -/
def resolveMappedPaths {ε : Type} (cwd : RPath) (fs : RPath → Except ε RPath) :
    List (String × String) → Except ε (List (String × RPath))
  | [] => Except.ok []
  | (m, p) :: rest =>
    match fs (joinC cwd (parsePath p)) with
    | Except.error e => Except.error e
    | Except.ok mp =>
      match resolveMappedPaths cwd fs rest with
      | Except.error e => Except.error e
      | Except.ok others => Except.ok ((m, mp) :: others)

/-- src/main.rs ServntState::new: merge the configured extension overrides
over the defaults, canonicalize cwd.join(base), canonicalize every
cwd.join(target) of the mapped paths, and fail on the first canonicalize
error. -/
def ServntState.new {ε : Type} (cwd : RPath) (servnt_file : ServntFile)
    (fs : RPath → Except ε RPath) : Except ε ServntState :=
  match fs (joinC cwd (parsePath servnt_file.paths.base)) with
  | Except.error e => Except.error e
  | Except.ok full_base_path =>
    match resolveMappedPaths cwd fs servnt_file.paths.mapped with
    | Except.error e => Except.error e
    | Except.ok mapped_paths =>
      Except.ok
        { extension_content_types :=
            servnt_file.extensions.foldl
              (fun m q => insertAssoc m q.1 q.2)
              default_extension_content_types
          full_base_path := full_base_path
          mapped_paths := mapped_paths }

/-- src/main.rs ServntState::get_content_type: look the extension of the
path up in the merged table; a missing extension or a missing table entry
is FileError::UnknownExtension.  (to_str on the extension always succeeds
here since the model's strings are valid unicode.) -/
def ServntState.get_content_type {ε : Type} (st : ServntState) (path : RPath) :
    Except (FileError ε) String :=
  match pathExtension path with
  | none => Except.error FileError.unknownExtension
  | some ext =>
    match lookupAssoc st.extension_content_types ext with
    | none => Except.error FileError.unknownExtension
    | some ct => Except.ok ct

/-- The for-loop of ServntState::resolve_path: the first mapping whose key
strip_prefixes match_path decides the final path (the target itself for an
empty remainder, target.join(remainder) otherwise); the loop breaks at the
first match. -/
def findMatchLoop : List (String × RPath) → RPath → Option RPath
  | [], _ => none
  | (matched, mapped) :: rest, match_path =>
    match stripPrefixC match_path (parsePath matched) with
    | some stripped =>
      some (if stripped = [] then mapped else joinC mapped stripped)
    | none => findMatchLoop rest match_path

/-- src/main.rs ServntState::resolve_path: build match_path as
Path::new("/").join(path), scan the mappings, fall back to
full_base_path.join(path), and canonicalize the result. -/
def ServntState.resolve_path {ε : Type} (st : ServntState)
    (fs : RPath → Except ε RPath) (path : String) : Except ε RPath :=
  fs ((findMatchLoop st.mapped_paths
        (joinC (parsePath "/") (parsePath path))).getD
      (joinC st.full_base_path (parsePath path)))

instance {ε α : Type} [DecidableEq ε] [DecidableEq α] :
    DecidableEq (Except ε α) := fun x y =>
  match x, y with
  | Except.ok a, Except.ok b =>
    if h : a = b then Decidable.isTrue (by rw [h])
    else Decidable.isFalse (by simp [h])
  | Except.error a, Except.error b =>
    if h : a = b then Decidable.isTrue (by rw [h])
    else Decidable.isFalse (by simp [h])
  | Except.ok _, Except.error _ => Decidable.isFalse (by simp)
  | Except.error _, Except.ok _ => Decidable.isFalse (by simp)

/-- The rooted form of a virtual path as characters: a single leading
separator prepended when the path does not already begin with one. -/
def rootedChars (p : String) : List Char :=
  match p.toList with
  | '/' :: _ => p.toList
  | _ => '/' :: p.toList

/-- A canonical path shape: absolute, with only ordinary segments after
the root (what fs::canonicalize returns on success). -/
def isCanonical : RPath → Bool
  | Component.rootDir :: rest =>
    rest.all (fun c =>
      match c with
      | Component.normal _ => true
      | _ => false)
  | _ => false

def exceptIsOk {ε α : Type} : Except ε α → Bool
  | Except.ok _ => true
  | Except.error _ => false

/-- One step of symbolic path normalization, used only to build concrete
model filesystems for witnesses: ".." removes the previous segment (the
root is its own parent) and "." is dropped. -/
def normStep (acc : RPath) (c : Component) : RPath :=
  match c with
  | Component.rootDir => [Component.rootDir]
  | Component.curDir => acc
  | Component.parentDir =>
    if acc = [Component.rootDir] ∨ acc = [] then acc else acc.dropLast
  | Component.normal s => acc ++ [Component.normal s]

def normAbs (p : RPath) : RPath := p.foldl normStep []

/-- A model filesystem on which canonicalize succeeds on every input and
returns it unchanged. -/
def fsOk : RPath → Except String RPath := fun q => Except.ok q

/-- The files existing in the concrete model filesystem fsDemo. -/
def demoFiles : List RPath :=
  [parsePath "/x/secret.html", parsePath "/outside/f.html"]

/-- A concrete model filesystem: canonicalize resolves "." and ".."
symbolically and succeeds exactly on the paths listed in demoFiles. -/
def fsDemo : RPath → Except String RPath := fun q =>
  if normAbs q ∈ demoFiles then Except.ok (normAbs q)
  else Except.error "No such file or directory"

/-- A model filesystem on which canonicalize succeeds exactly on paths
already in canonical shape. -/
def fsCanonOnly : RPath → Except String RPath := fun q =>
  if isCanonical q then Except.ok q else Except.error "not canonical"

/-- A resolver state with the default content types, base directory
"/srv/base" and the given mappings. -/
def stWith (m : List (String × RPath)) : ServntState :=
  { extension_content_types := default_extension_content_types
    full_base_path := parsePath "/srv/base"
    mapped_paths := m }

def appW : AppInfo := { name := "demo", version := "0.1.0" }

/-- A concrete configuration file carrying an extension override that
collides with a default. -/
def fileW6 : ServntFile :=
  { app := appW
    extensions := [("html", "text/x-custom"), ("json", "application/json")]
    paths := { base := "base", mapped := [] } }

/-- A concrete configuration file with one mapped directory. -/
def fileW7 : ServntFile :=
  { app := appW
    extensions := []
    paths := { base := "base", mapped := [("/m", "mdir")] } }

def cwdW : RPath := parsePath "/cw"

/-- The state ServntState.new builds from fileW6 over fsOk. -/
def stW6 : ServntState :=
  { extension_content_types :=
      [("html", "text/x-custom"), ("png", "image/png"),
       ("ico", "image/vnd.microsoft.icon"),
       ("webmanifest", "application/manifest+json"),
       ("json", "application/json")]
    full_base_path := parsePath "/cw/base"
    mapped_paths := [] }

/-- The state ServntState.new builds from fileW7 over fsCanonOnly. -/
def stW7 : ServntState :=
  { extension_content_types := default_extension_content_types
    full_base_path := parsePath "/cw/base"
    mapped_paths := [("/m", parsePath "/cw/mdir")] }

/-- Modelled from the spec: "the substring after the last `.` in the
final path segment", with no exception for a leading dot.  Used only to
compare the spec's extraction rule with the code's. -/
def specSuffixAfterLastDot (name : String) : Option String :=
  if '.' ∈ name.toList then
    some (String.mk (name.toList.reverse.takeWhile
      (fun c => decide (c ≠ '.'))).reverse)
  else none

/-- The spec's extraction rule applied to the final segment of a path. -/
def specLastSegSuffix (p : RPath) : Option String :=
  (pathFileName p).bind specSuffixAfterLastDot

-- sanity checks of the path model against Rust std::path behaviour
example : parsePath "/a/./b//c/" =
    [Component.rootDir, Component.normal "a", Component.normal "b",
     Component.normal "c"] := by decide
example : parsePath "./a/.." =
    [Component.curDir, Component.normal "a", Component.parentDir] := by decide
example : parsePath "/." = [Component.rootDir] := by decide
example : parsePath "" = [] := by decide
example : joinC (parsePath "/a") (parsePath "/b") = parsePath "/b" := by decide
example : joinC (parsePath "/a") (parsePath "./b") = parsePath "/a/b" := by
  decide
example : stripPrefixC (parsePath "/foobar") (parsePath "/foo") = none := by
  decide
example : stripPrefixC (parsePath "/foo/bar") (parsePath "/foo") =
    some [Component.normal "bar"] := by decide
example : stripPrefixC (parsePath "/a/.x") (parsePath "/a/.") =
    some [Component.normal ".x"] := by decide
example : extensionOfName ".gitignore" = none := by decide
example : extensionOfName "a.tar.gz" = some "gz" := by decide
example : extensionOfName "foo." = some "" := by decide
example : pathExtension (parsePath "/x/a.html") = some "html" := by decide

/-! ### Basic lemmas about the path model -/

theorem rawSegs_ne_nil (cs : List Char) : rawSegs cs ≠ [] := by
  induction cs with
  | nil => simp [rawSegs]
  | cons c cs ih =>
    simp only [rawSegs]
    split
    · simp
    · split
      · simp
      · simp

theorem mkComp_ne_root (s : List Char) : mkComp s ≠ Component.rootDir := by
  unfold mkComp
  split <;> simp

theorem stripPrefixC_eq_some_iff (pre : RPath) :
    ∀ self r : RPath, stripPrefixC self pre = some r ↔ self = pre ++ r := by
  induction pre with
  | nil =>
    intro self r
    simp [stripPrefixC]
  | cons d ps ih =>
    intro self r
    cases self with
    | nil => simp [stripPrefixC]
    | cons c rest =>
      by_cases h : d = c
      · subst h
        simp [stripPrefixC, ih]
      · simp [stripPrefixC, h, Ne.symm h]

theorem stripPrefixC_cons_ne (x y : Component) (a b : RPath) (h : y ≠ x) :
    stripPrefixC (x :: a) (y :: b) = none := by
  simp [stripPrefixC, h]

theorem findMatchLoop_none (l : List (String × RPath)) (mp : RPath)
    (h : ∀ q ∈ l, stripPrefixC mp (parsePath q.1) = none) :
    findMatchLoop l mp = none := by
  induction l with
  | nil => rfl
  | cons q rest ih =>
    obtain ⟨m, t⟩ := q
    simp only [findMatchLoop]
    rw [h (m, t) (by simp)]
    exact ih fun q hq => h q (by simp [hq])

theorem findMatchLoop_first (l₁ l₂ : List (String × RPath)) (pre : String)
    (t : RPath) (mp rem : RPath)
    (hskip : ∀ q ∈ l₁, stripPrefixC mp (parsePath q.1) = none)
    (hmatch : stripPrefixC mp (parsePath pre) = some rem) :
    findMatchLoop (l₁ ++ (pre, t) :: l₂) mp =
      some (if rem = [] then t else joinC t rem) := by
  induction l₁ with
  | nil =>
    simp only [List.nil_append, findMatchLoop]
    rw [hmatch]
  | cons q rest ih =>
    obtain ⟨m, tt⟩ := q
    simp only [List.cons_append, findMatchLoop]
    rw [hskip (m, tt) (by simp)]
    exact ih fun q hq => hskip q (by simp [hq])

theorem findMatchLoop_skip (l₁ l₂ : List (String × RPath)) (pre : String)
    (t : RPath) (mp : RPath)
    (hnone : stripPrefixC mp (parsePath pre) = none) :
    findMatchLoop (l₁ ++ (pre, t) :: l₂) mp = findMatchLoop (l₁ ++ l₂) mp := by
  induction l₁ with
  | nil =>
    simp only [List.nil_append, findMatchLoop]
    rw [hnone]
  | cons q rest ih =>
    obtain ⟨m, tt⟩ := q
    simp only [List.cons_append, findMatchLoop]
    cases hs : stripPrefixC mp (parsePath m) with
    | none => exact ih
    | some s => rfl

/-- Dropping a mapping whose key fails to strip match_path leaves
resolve_path unchanged. -/
theorem resolve_skip {ε : Type} (st st' : ServntState)
    (fs : RPath → Except ε RPath) (p : String) (pre : String) (t : RPath)
    (l₁ l₂ : List (String × RPath))
    (hm : st.mapped_paths = l₁ ++ (pre, t) :: l₂)
    (hm' : st' = { st with mapped_paths := l₁ ++ l₂ })
    (hnone : stripPrefixC (joinC (parsePath "/") (parsePath p))
      (parsePath pre) = none) :
    st.resolve_path fs p = st'.resolve_path fs p := by
  unfold ServntState.resolve_path
  rw [hm', hm]
  simp only
  rw [findMatchLoop_skip _ _ _ _ _ hnone]

theorem parsePath_head_root (p : String) (h : p.toList.head? = some '/') :
    (parsePath p).head? = some Component.rootDir := by
  cases hl : p.toList with
  | nil => rw [hl] at h; simp at h
  | cons c rest =>
    rw [hl] at h
    have hc : c = '/' := by simpa using h
    subst hc
    unfold parsePath
    rw [hl]
    unfold parseComps
    split
    · rfl
    · next hne => exact absurd rfl (hne rest)

theorem matchPath_head (x : RPath) :
    (joinC (parsePath "/") x).head? = some Component.rootDir := by
  have hp : parsePath "/" = [Component.rootDir] := by decide
  unfold joinC
  rw [hp]
  split
  · next h => exact h
  · split
    · simp_all
    · simp

theorem parseComps_rel_head (c : Char) (cs : List Char) (h : c ≠ '/') :
    ∃ d rest, parseComps (c :: cs) = d :: rest ∧ d ≠ Component.rootDir := by
  cases hr : rawSegs cs with
  | nil => exact absurd hr (rawSegs_ne_nil cs)
  | cons s rest =>
    have hseg : segsOf (c :: cs) =
        (c :: s) :: rest.filter (fun s => decide (s ≠ [])) := by
      simp only [segsOf, rawSegs, if_neg h, hr]
      simp
    unfold parseComps
    split
    · simp_all
    · rw [hseg]
      simp only
      refine ⟨_, _, rfl, ?_⟩
      split
      · simp
      · exact mkComp_ne_root _

/-- A nonempty mapping key that does not begin with a separator never
strips the rooted match path. -/
theorem stripPrefix_matchPath_rel (p : String) (pre : String)
    (h0 : pre.toList ≠ []) (h1 : pre.toList.head? ≠ some '/') :
    stripPrefixC (joinC (parsePath "/") (parsePath p)) (parsePath pre) =
      none := by
  cases hl : pre.toList with
  | nil => exact absurd hl h0
  | cons c cs =>
    have hc : c ≠ '/' := by
      rw [hl] at h1
      simpa using h1
    obtain ⟨d, rest, hd, hdne⟩ := parseComps_rel_head c cs hc
    have hhead := matchPath_head (parsePath p)
    cases hmp : joinC (parsePath "/") (parsePath p) with
    | nil => rw [hmp] at hhead; simp at hhead
    | cons x mp' =>
      rw [hmp] at hhead
      have hx : x = Component.rootDir := by simpa using hhead
      subst hx
      unfold parsePath
      rw [hl, hd]
      exact stripPrefixC_cons_ne _ _ _ _ hdne

/-! ### Claim theorems: path resolution -/

/-- Claim C2: for every virtual path p that matches no configured mapping
key, resolve_path canonicalizes the base directory joined with p, so it
returns the canonical path when that path exists and propagates the
filesystem error (the NotFound case) when it does not. -/
theorem c2_base_fallback {ε : Type} (st : ServntState)
    (fs : RPath → Except ε RPath) (p : String)
    (h : ∀ q ∈ st.mapped_paths,
      stripPrefixC (joinC (parsePath "/") (parsePath p)) (parsePath q.1) =
        none) :
    st.resolve_path fs p = fs (joinC st.full_base_path (parsePath p)) := by
  unfold ServntState.resolve_path
  rw [findMatchLoop_none _ _ h]
  rfl

/-- Witness for C2: a concrete unmatched path resolves through the base
directory. -/
theorem c2_base_fallback_witness :
    (stWith [("/m", parsePath "/srv/m")]).resolve_path fsOk "a/b.html" =
      Except.ok (parsePath "/srv/base/a/b.html") := by
  have h := c2_base_fallback (stWith [("/m", parsePath "/srv/m")]) fsOk
    "a/b.html" (by decide)
  rw [h]
  decide

/-- Counterexample to claim C1 as stated: with the two mappings
"/a" -> /t1 and "/a/b" -> /t2 both configured, the virtual path "a/b/c"
satisfies the claim's match condition for the mapping ("/a/b", /t2) —
its rooted form literally extends "/a/b" by a separator — yet resolution
(scanning in iteration order) uses the mapping "/a" first and returns
/t1/b/c, which differs from canonicalize(/t2 joined with the remainder)
under either reading of the remainder ("c" or "/c"). -/
theorem c1_counterexample :
    (("/a/b", parsePath "/t2") ∈
        (stWith [("/a", parsePath "/t1"),
                 ("/a/b", parsePath "/t2")]).mapped_paths)
    ∧ rootedChars "a/b/c" = "/a/b".toList ++ "/c".toList
    ∧ (stWith [("/a", parsePath "/t1"),
               ("/a/b", parsePath "/t2")]).resolve_path fsOk "a/b/c" =
        Except.ok (parsePath "/t1/b/c")
    ∧ fsOk (joinC (parsePath "/t2") (parsePath "c")) =
        Except.ok (parsePath "/t2/c")
    ∧ fsOk (joinC (parsePath "/t2") (parsePath "/c")) =
        Except.ok (parsePath "/c")
    ∧ parsePath "/t1/b/c" ≠ parsePath "/t2/c"
    ∧ parsePath "/t1/b/c" ≠ parsePath "/c" := by
  decide

/-- Claim C1 (amended): for every configured mapping (pre, t) that is the
first mapping in iteration order whose key strips the rooted virtual
path, resolve_path equals canonicalize of t joined with the stripped
remainder — canonicalize of t itself when the remainder is empty. -/
theorem c1_first_match {ε : Type} (st : ServntState)
    (fs : RPath → Except ε RPath) (p pre : String) (t : RPath)
    (l₁ l₂ : List (String × RPath)) (rem : RPath)
    (hm : st.mapped_paths = l₁ ++ (pre, t) :: l₂)
    (hskip : ∀ q ∈ l₁,
      stripPrefixC (joinC (parsePath "/") (parsePath p)) (parsePath q.1) =
        none)
    (hmatch : stripPrefixC (joinC (parsePath "/") (parsePath p))
        (parsePath pre) = some rem) :
    st.resolve_path fs p = fs (if rem = [] then t else joinC t rem) := by
  unfold ServntState.resolve_path
  rw [hm, findMatchLoop_first _ _ _ _ _ _ hskip hmatch]
  rfl

/-- Witness for C1 (amended): a concrete mapped path resolves through its
mapping target. -/
theorem c1_first_match_witness :
    (stWith [("/m", parsePath "/srv/m")]).resolve_path fsOk "m/logo.png" =
      Except.ok (parsePath "/srv/m/logo.png") := by
  have h := c1_first_match (stWith [("/m", parsePath "/srv/m")]) fsOk
    "m/logo.png" "/m" (parsePath "/srv/m") [] [] [Component.normal "logo.png"]
    rfl (by decide) (by decide)
  rw [h]
  decide

/-- Claim C4: resolve_path performs no containment check — the virtual
path "../../x/secret.html" contains traversal segments, resolves through
the base directory, canonicalizes (in the model filesystem fsDemo) to the
existing file /x/secret.html, which lies under neither the base directory
/srv/base nor the mapping target /srv/m, and resolve_path succeeds,
returning that outside path. -/
theorem c4_traversal_escape :
    Component.parentDir ∈ parsePath "../../x/secret.html"
    ∧ (stWith [("/m", parsePath "/srv/m")]).resolve_path fsDemo
        "../../x/secret.html" = Except.ok (parsePath "/x/secret.html")
    ∧ stripPrefixC (parsePath "/x/secret.html") (parsePath "/srv/base") =
        none
    ∧ stripPrefixC (parsePath "/x/secret.html") (parsePath "/srv/m") =
        none := by
  decide

/-- Claim C8: when the virtual path already begins with a separator and no
mapping matches, the fallback join discards the base directory entirely
(joining an absolute path replaces the base), so resolve_path
canonicalizes the supplied absolute path itself. -/
theorem c8_absolute_bypass {ε : Type} (st : ServntState)
    (fs : RPath → Except ε RPath) (p : String)
    (h1 : p.toList.head? = some '/')
    (h2 : ∀ q ∈ st.mapped_paths,
      stripPrefixC (joinC (parsePath "/") (parsePath p)) (parsePath q.1) =
        none) :
    st.resolve_path fs p = fs (parsePath p) := by
  unfold ServntState.resolve_path
  rw [findMatchLoop_none _ _ h2]
  simp only [Option.getD_none]
  have hroot := parsePath_head_root p h1
  unfold joinC
  rw [if_pos hroot]

/-- Witness for C8: a concrete absolute virtual path succeeds on an
existing file (in the model filesystem fsDemo) that lies outside the base
directory, with no traversal segments. -/
theorem c8_absolute_bypass_witness :
    (stWith [("/m", parsePath "/srv/m")]).resolve_path fsDemo
        "/outside/f.html" = Except.ok (parsePath "/outside/f.html")
    ∧ stripPrefixC (parsePath "/outside/f.html") (parsePath "/srv/base") =
        none
    ∧ Component.parentDir ∉ parsePath "/outside/f.html" := by
  refine ⟨?_, by decide, by decide⟩
  have h := c8_absolute_bypass (stWith [("/m", parsePath "/srv/m")]) fsDemo
    "/outside/f.html" (by decide) (by decide)
  rw [h]
  decide

/-- Counterexample to claim C9 as stated: a mapping whose key is the empty
string does not begin with a separator, yet it matches every virtual
path (strip_prefix with an empty prefix always succeeds), and because the
stripped remainder is the rooted path itself, the join replaces the
target: "x.html" resolves to /x.html instead of falling through to the
base directory. -/
theorem c9_counterexample :
    "".toList.head? ≠ some '/'
    ∧ (stWith [("", parsePath "/t")]).resolve_path fsOk "x.html" =
        Except.ok (parsePath "/x.html")
    ∧ (stWith []).resolve_path fsOk "x.html" =
        Except.ok (parsePath "/srv/base/x.html")
    ∧ parsePath "/x.html" ≠ parsePath "/srv/base/x.html" := by
  decide

/-- Claim C9 (amended): a configured mapping whose key is nonempty and
does not begin with a path separator never matches any virtual path —
the rooted match path always begins with the root component — and
resolution behaves exactly as if the mapping were absent. -/
theorem c9_relative_never_matches {ε : Type} (st st' : ServntState)
    (fs : RPath → Except ε RPath) (p pre : String) (t : RPath)
    (l₁ l₂ : List (String × RPath))
    (h0 : pre.toList ≠ []) (h1 : pre.toList.head? ≠ some '/')
    (hm : st.mapped_paths = l₁ ++ (pre, t) :: l₂)
    (hm' : st' = { st with mapped_paths := l₁ ++ l₂ }) :
    stripPrefixC (joinC (parsePath "/") (parsePath p)) (parsePath pre) =
        none
    ∧ st.resolve_path fs p = st'.resolve_path fs p := by
  have hn := stripPrefix_matchPath_rel p pre h0 h1
  exact ⟨hn, resolve_skip st st' fs p pre t l₁ l₂ hm hm' hn⟩

/-- Witness for C9 (amended): a concrete separator-less key is skipped and
resolution is unchanged by its removal. -/
theorem c9_relative_never_matches_witness :
    stripPrefixC (joinC (parsePath "/") (parsePath "assets/x.png"))
        (parsePath "assets") = none
    ∧ (stWith [("assets", parsePath "/t")]).resolve_path fsOk
        "assets/x.png" = (stWith []).resolve_path fsOk "assets/x.png" := by
  exact c9_relative_never_matches (stWith [("assets", parsePath "/t")])
    (stWith []) fsOk "assets/x.png" "assets" (parsePath "/t") [] []
    (by decide) (by decide) rfl (by decide)

/-! ### Lemmas about the extension table -/

theorem lookupAssoc_append (a b : List (String × String)) (e : String) :
    lookupAssoc (a ++ b) e =
      match lookupAssoc a e with
      | some v => some v
      | none => lookupAssoc b e := by
  induction a with
  | nil => rfl
  | cons q rest ih =>
    obtain ⟨k, v⟩ := q
    by_cases hk : k = e
    · simp [lookupAssoc, hk]
    · simp [lookupAssoc, hk, ih]

theorem lookupAssoc_map_ne (l : List (String × String)) (k v e : String)
    (h : e ≠ k) :
    lookupAssoc (l.map fun q => if q.1 = k then (k, v) else q) e =
      lookupAssoc l e := by
  induction l with
  | nil => rfl
  | cons q rest ih =>
    obtain ⟨k₁, v₁⟩ := q
    rw [List.map_cons]
    by_cases h1 : k₁ = k
    · subst h1
      rw [show (if ((k₁, v₁) : String × String).1 = k₁ then (k₁, v)
          else (k₁, v₁)) = (k₁, v) from if_pos rfl]
      simp only [lookupAssoc]
      rw [if_neg (fun hh => h hh.symm), if_neg (fun hh => h hh.symm), ih]
    · rw [show (if ((k₁, v₁) : String × String).1 = k then (k, v)
          else (k₁, v₁)) = (k₁, v₁) from if_neg h1]
      simp only [lookupAssoc]
      by_cases h2 : k₁ = e
      · rw [if_pos h2, if_pos h2]
      · rw [if_neg h2, if_neg h2, ih]

theorem lookupAssoc_map_eq (l : List (String × String)) (k v : String)
    (h : l.any (fun q => decide (q.1 = k)) = true) :
    lookupAssoc (l.map fun q => if q.1 = k then (k, v) else q) k = some v := by
  induction l with
  | nil => simp at h
  | cons q rest ih =>
    obtain ⟨k₁, v₁⟩ := q
    rw [List.map_cons]
    by_cases h1 : k₁ = k
    · subst h1
      rw [show (if ((k₁, v₁) : String × String).1 = k₁ then (k₁, v)
          else (k₁, v₁)) = (k₁, v) from if_pos rfl]
      simp [lookupAssoc]
    · rw [show (if ((k₁, v₁) : String × String).1 = k then (k, v)
          else (k₁, v₁)) = (k₁, v₁) from if_neg h1]
      have h' : rest.any (fun q => decide (q.1 = k)) = true := by
        simp only [List.any_cons, Bool.or_eq_true, decide_eq_true_eq] at h
        rcases h with h | h
        · exact absurd h h1
        · simpa using h
      simp only [lookupAssoc]
      rw [if_neg h1, ih h']

theorem lookupAssoc_none_of_not_any (l : List (String × String)) (k : String)
    (h : l.any (fun q => decide (q.1 = k)) = false) :
    lookupAssoc l k = none := by
  induction l with
  | nil => rfl
  | cons q rest ih =>
    obtain ⟨k₁, v₁⟩ := q
    simp only [List.any_cons, Bool.or_eq_false_iff, decide_eq_false_iff_not] at h
    simp [lookupAssoc, h.1, ih (by simpa using h.2)]

theorem lookupAssoc_insertAssoc (l : List (String × String)) (k v e : String) :
    lookupAssoc (insertAssoc l k v) e =
      if k = e then some v else lookupAssoc l e := by
  unfold insertAssoc
  split
  · next hany =>
    by_cases he : k = e
    · subst he
      rw [if_pos rfl, lookupAssoc_map_eq l k v hany]
    · rw [if_neg he, lookupAssoc_map_ne l k v e (fun hh => he hh.symm)]
  · next hany =>
    have hfalse : l.any (fun q => decide (q.1 = k)) = false := by
      cases hb : l.any (fun q => decide (q.1 = k))
      · rfl
      · exact absurd hb hany
    rw [lookupAssoc_append]
    by_cases he : k = e
    · subst he
      rw [lookupAssoc_none_of_not_any l k hfalse]
      simp [lookupAssoc]
    · cases hl : lookupAssoc l e <;> simp [lookupAssoc, he, hl]

theorem lookupAssoc_foldl_insert (ovs : List (String × String)) :
    ∀ (init : List (String × String)) (e : String),
    lookupAssoc (ovs.foldl (fun m q => insertAssoc m q.1 q.2) init) e =
      match lookupLast ovs e with
      | some v => some v
      | none => lookupAssoc init e := by
  induction ovs with
  | nil => intro init e; rfl
  | cons q ovs ih =>
    intro init e
    obtain ⟨k, v⟩ := q
    simp only [List.foldl_cons]
    rw [ih, lookupAssoc_insertAssoc]
    have hL : lookupLast ((k, v) :: ovs) e =
        match lookupLast ovs e with
        | some w => some w
        | none => if k = e then some v else none := by
      unfold lookupLast
      simp only [List.reverse_cons]
      rw [lookupAssoc_append]
      cases h2 : lookupAssoc ovs.reverse e <;> simp [lookupAssoc, h2]
    rw [hL]
    cases h2 : lookupLast ovs e
    · by_cases hk : k = e <;> simp [hk]
    · simp

/-- The merged table built by ServntState.new. -/
theorem new_ect {ε : Type} (cwd : RPath) (f : ServntFile)
    (fs : RPath → Except ε RPath) (st : ServntState)
    (hst : ServntState.new cwd f fs = Except.ok st) :
    st.extension_content_types =
      f.extensions.foldl (fun m q => insertAssoc m q.1 q.2)
        default_extension_content_types := by
  unfold ServntState.new at hst
  split at hst
  · exact Except.noConfusion hst
  · split at hst
    · exact Except.noConfusion hst
    · injection hst with h
      rw [← h]

/-! ### Claim theorems: content types -/

/-- Claim C6: the table built at construction is the fixed default table
overlaid with the caller-supplied overrides — an override (its last
binding, for a duplicated key) replaces the default on any key collision,
keys without an override keep their default — and for every extension
given an override, get_content_type returns the override's value. -/
theorem c6_override_merge {ε : Type} (cwd : RPath) (f : ServntFile)
    (fs : RPath → Except ε RPath) (st : ServntState) (p : RPath)
    (e v : String) (hst : ServntState.new cwd f fs = Except.ok st) :
    (lookupLast f.extensions e = some v →
      lookupAssoc st.extension_content_types e = some v)
    ∧ (lookupLast f.extensions e = none →
      lookupAssoc st.extension_content_types e =
        lookupAssoc default_extension_content_types e)
    ∧ (pathExtension p = some e → lookupLast f.extensions e = some v →
      st.get_content_type (ε := ε) p = Except.ok v) := by
  have htab := new_ect cwd f fs st hst
  have hfold := lookupAssoc_foldl_insert f.extensions
    default_extension_content_types e
  rw [← htab] at hfold
  refine ⟨fun hov => ?_, fun hnone => ?_, fun hpe hov => ?_⟩
  · rw [hfold, hov]
  · rw [hfold, hnone]
  · have hv : lookupAssoc st.extension_content_types e = some v := by
      rw [hfold, hov]
    simp [ServntState.get_content_type, hpe, hv]

/-- Witness for C6: the override for "html" wins over the default, and an
extension absent from the defaults becomes servable. -/
theorem c6_override_merge_witness :
    lookupAssoc stW6.extension_content_types "html" = some "text/x-custom"
    ∧ stW6.get_content_type (ε := String) (parsePath "data.json") =
        Except.ok "application/json" := by
  have h1 := c6_override_merge cwdW fileW6 fsOk stW6 (parsePath "data.json")
    "html" "text/x-custom" (by decide)
  have h2 := c6_override_merge cwdW fileW6 fsOk stW6 (parsePath "data.json")
    "json" "application/json" (by decide)
  exact ⟨h1.1 (by decide), h2.2.2 (by decide) (by decide)⟩

/-- Counterexample to claim C3 as stated: get_content_type is not a pure
function of the final segment's suffix after the last '.' — the names
".html" and "a.html" have the same suffix "html", yet the first fails
with UnknownExtension (a leading-dot name has no extension) while the
second succeeds with the default MIME type. -/
theorem c3_suffix_counterexample :
    specLastSegSuffix (parsePath ".html") =
        specLastSegSuffix (parsePath "a.html")
    ∧ (stWith []).get_content_type (ε := String) (parsePath ".html") =
        Except.error FileError.unknownExtension
    ∧ (stWith []).get_content_type (ε := String) (parsePath "a.html") =
        Except.ok "text/html" := by
  decide

/-- Claim C3 (amended): get_content_type is a pure function of the path's
extension in the code's sense (the substring of the final segment after
its last '.', except that a name whose only '.' leads is treated as
having no extension): paths with equal extensions look up equally, the
result is UnknownExtension exactly when the extension is missing or
absent from the merged table, otherwise the MIME type associated with
the extension in the merged table is returned, and a final segment
without any '.' always fails with UnknownExtension. -/
theorem c3_extension_lookup {ε : Type} (st : ServntState) (p q : RPath)
    (n e ct : String) (hpq : pathExtension p = pathExtension q) :
    st.get_content_type (ε := ε) p = st.get_content_type (ε := ε) q
    ∧ (st.get_content_type (ε := ε) p =
          Except.error FileError.unknownExtension ↔
        (pathExtension p).bind (lookupAssoc st.extension_content_types) =
          none)
    ∧ (pathExtension p = some e →
        lookupAssoc st.extension_content_types e = some ct →
        st.get_content_type (ε := ε) p = Except.ok ct)
    ∧ (pathFileName p = some n → ('.' ∈ n.toList → False) →
        st.get_content_type (ε := ε) p =
          Except.error FileError.unknownExtension) := by
  refine ⟨?_, ?_, ?_, ?_⟩
  · unfold ServntState.get_content_type
    rw [hpq]
  · unfold ServntState.get_content_type
    cases hpe : pathExtension p with
    | none => simp
    | some e =>
      cases hl : lookupAssoc st.extension_content_types e with
      | none => simp [hl]
      | some ct =>
        simp only [hl, Option.some_bind]
        constructor
        · intro hc
          exact Except.noConfusion hc
        · intro hc
          exact Option.noConfusion hc
  · intro hpe hct
    simp [ServntState.get_content_type, hpe, hct]
  · intro hn hdot
    have hext : extensionOfName n = none := by
      have hne : n.toList ≠ ['.', '.'] := fun hh => hdot (by rw [hh]; simp)
      unfold extensionOfName
      rw [if_neg hne, if_neg hdot]
    have hpe : pathExtension p = none := by
      rw [pathExtension, hn]
      simp [hext]
    unfold ServntState.get_content_type
    rw [hpe]

/-- Witness for C3 (amended): two concrete paths with the same extension
look up identically, the characterizations hold at them, and a present
extension returns its table entry. -/
theorem c3_extension_lookup_witness :
    (stWith []).get_content_type (ε := String) (parsePath "a/b.html") =
        (stWith []).get_content_type (ε := String) (parsePath "zz/qq/c.html")
    ∧ ((stWith []).get_content_type (ε := String) (parsePath "a/b.html") =
          Except.error FileError.unknownExtension ↔
        (pathExtension (parsePath "a/b.html")).bind
          (lookupAssoc (stWith []).extension_content_types) = none)
    ∧ (pathExtension (parsePath "a/b.html") = some "html" →
        lookupAssoc (stWith []).extension_content_types "html" =
          some "text/html" →
        (stWith []).get_content_type (ε := String) (parsePath "a/b.html") =
          Except.ok "text/html")
    ∧ (pathFileName (parsePath "a/b.html") = some "README" →
        ('.' ∈ "README".toList → False) →
        (stWith []).get_content_type (ε := String) (parsePath "a/b.html") =
          Except.error FileError.unknownExtension) :=
  c3_extension_lookup (stWith []) (parsePath "a/b.html")
    (parsePath "zz/qq/c.html") "README" "html" "text/html" (by decide)

theorem takeWhile_append_stop (l : List Char) (h : ∀ a ∈ l, a ≠ '.') :
    (l ++ ['.']).takeWhile (fun c => decide (c ≠ '.')) = l := by
  induction l with
  | nil => simp [List.takeWhile]
  | cons c rest ih =>
    have hc : c ≠ '.' := h c (by simp)
    rw [List.cons_append, List.takeWhile_cons, if_pos (by simp [hc]),
      ih fun a ha => h a (by simp [ha])]

theorem dropWhile_append_stop (l : List Char) (h : ∀ a ∈ l, a ≠ '.') :
    (l ++ ['.']).dropWhile (fun c => decide (c ≠ '.')) = ['.'] := by
  induction l with
  | nil => simp [List.dropWhile]
  | cons c rest ih =>
    have hc : c ≠ '.' := h c (by simp)
    rw [List.cons_append, List.dropWhile_cons, if_pos (by simp [hc])]
    exact ih fun a ha => h a (by simp [ha])

/-- A name consisting of a leading dot and no further dot has no
extension in the code's sense. -/
theorem extensionOfName_leading_dot (n : String) (rest : List Char)
    (h2 : n.toList = '.' :: rest) (h3 : '.' ∈ rest → False) :
    extensionOfName n = none := by
  unfold extensionOfName
  rw [h2]
  have hne : ('.' :: rest) ≠ ['.', '.'] := by
    intro hh
    injection hh with _ h4
    exact h3 (by rw [h4]; simp)
  rw [if_neg hne, if_pos (by simp)]
  have hrev : ('.' :: rest).reverse = rest.reverse ++ ['.'] := by
    simp
  rw [hrev, dropWhile_append_stop rest.reverse
    (fun a ha => fun he => h3 (by rw [← he]; exact List.mem_reverse.mp ha))]
  simp

/-- Claim C10: for every path whose final segment begins with '.' and
contains no other '.', get_content_type fails with UnknownExtension —
the leading-dot name is treated as having no extension. -/
theorem c10_leading_dot {ε : Type} (st : ServntState) (p : RPath)
    (n : String) (rest : List Char) (h1 : pathFileName p = some n)
    (h2 : n.toList = '.' :: rest) (h3 : '.' ∈ rest → False) :
    st.get_content_type (ε := ε) p =
      Except.error FileError.unknownExtension := by
  have hext : extensionOfName n = none :=
    extensionOfName_leading_dot n rest h2 h3
  have hpe : pathExtension p = none := by
    rw [pathExtension, h1]
    simp [hext]
  unfold ServntState.get_content_type
  rw [hpe]

/-- Witness for C10: ".gitignore" has a dot yet no extension, and fails. -/
theorem c10_leading_dot_witness :
    (stWith []).get_content_type (ε := String) (parsePath ".gitignore") =
      Except.error FileError.unknownExtension :=
  c10_leading_dot (stWith []) (parsePath ".gitignore") ".gitignore"
    "gitignore".toList (by decide) (by decide) (by decide)

/-! ### Lemmas about construction -/

theorem resolveMappedPaths_isOk {ε : Type} (cwd : RPath)
    (fs : RPath → Except ε RPath) (l : List (String × String)) :
    exceptIsOk (resolveMappedPaths cwd fs l) =
      l.all (fun mp => exceptIsOk (fs (joinC cwd (parsePath mp.2)))) := by
  induction l with
  | nil => rfl
  | cons q rest ih =>
    obtain ⟨m, pth⟩ := q
    simp only [resolveMappedPaths, List.all_cons]
    cases hf : fs (joinC cwd (parsePath pth)) with
    | error e => simp [hf, exceptIsOk]
    | ok mp =>
      cases hr : resolveMappedPaths cwd fs rest with
      | error e =>
        rw [hr] at ih
        simp only [exceptIsOk] at ih
        simp [hf, hr, exceptIsOk, ← ih]
      | ok others =>
        rw [hr] at ih
        simp only [exceptIsOk] at ih
        simp [hf, hr, exceptIsOk, ← ih]

theorem new_isOk {ε : Type} (cwd : RPath) (f : ServntFile)
    (fs : RPath → Except ε RPath) :
    exceptIsOk (ServntState.new cwd f fs) =
      (exceptIsOk (fs (joinC cwd (parsePath f.paths.base))) &&
        f.paths.mapped.all
          (fun mp => exceptIsOk (fs (joinC cwd (parsePath mp.2))))) := by
  unfold ServntState.new
  cases hb : fs (joinC cwd (parsePath f.paths.base)) with
  | error e => simp [hb, exceptIsOk]
  | ok fb =>
    have hall := resolveMappedPaths_isOk cwd fs f.paths.mapped
    cases hr : resolveMappedPaths cwd fs f.paths.mapped with
    | error e =>
      rw [hr] at hall
      simp only [exceptIsOk] at hall
      simp [hb, hr, exceptIsOk, ← hall]
    | ok ms =>
      rw [hr] at hall
      simp only [exceptIsOk] at hall
      simp [hb, hr, exceptIsOk, ← hall]

theorem resolveMappedPaths_canonical {ε : Type} (cwd : RPath)
    (fs : RPath → Except ε RPath)
    (hcanon : ∀ q r, fs q = Except.ok r → isCanonical r = true) :
    ∀ (l : List (String × String)) (ms : List (String × RPath)),
    resolveMappedPaths cwd fs l = Except.ok ms →
    ms.all (fun q => isCanonical q.2) = true := by
  intro l
  induction l with
  | nil =>
    intro ms h
    simp only [resolveMappedPaths] at h
    injection h with h
    rw [← h]
    rfl
  | cons q rest ih =>
    intro ms h
    obtain ⟨m, pth⟩ := q
    simp only [resolveMappedPaths] at h
    split at h
    · exact Except.noConfusion h
    · next mp heq1 =>
      split at h
      · exact Except.noConfusion h
      · next others heq2 =>
        injection h with h
        rw [← h]
        simp only [List.all_cons, Bool.and_eq_true]
        exact ⟨hcanon _ _ heq1, ih others heq2⟩

theorem new_canonical {ε : Type} (cwd : RPath) (f : ServntFile)
    (fs : RPath → Except ε RPath) (st : ServntState)
    (hcanon : ∀ q r, fs q = Except.ok r → isCanonical r = true)
    (hst : ServntState.new cwd f fs = Except.ok st) :
    isCanonical st.full_base_path = true
    ∧ st.mapped_paths.all (fun q => isCanonical q.2) = true := by
  unfold ServntState.new at hst
  split at hst
  · exact Except.noConfusion hst
  · next fb heq1 =>
    split at hst
    · exact Except.noConfusion hst
    · next ms heq2 =>
      injection hst with h
      rw [← h]
      exact ⟨hcanon _ _ heq1,
        resolveMappedPaths_canonical cwd fs hcanon f.paths.mapped ms heq2⟩

theorem fsCanonOnly_canonical :
    ∀ q r, fsCanonOnly q = Except.ok r → isCanonical r = true := by
  intro q r h
  unfold fsCanonOnly at h
  split at h
  · next hc =>
    injection h with h
    rw [← h]
    exact hc
  · exact Except.noConfusion h

/-- Claim C7: construction fails exactly when the base directory or at
least one mapped target fails to canonicalize, and on success every
stored directory path (the base and all mapping targets) is absolute and
canonical, granted that the filesystem's canonicalize only ever returns
canonical absolute paths. -/
theorem c7_construction {ε : Type} (cwd : RPath) (f : ServntFile)
    (fs : RPath → Except ε RPath)
    (hcanon : ∀ q r, fs q = Except.ok r → isCanonical r = true) :
    exceptIsOk (ServntState.new cwd f fs) =
      (exceptIsOk (fs (joinC cwd (parsePath f.paths.base))) &&
        f.paths.mapped.all
          (fun mp => exceptIsOk (fs (joinC cwd (parsePath mp.2)))))
    ∧ ∀ st, ServntState.new cwd f fs = Except.ok st →
        isCanonical st.full_base_path = true
        ∧ st.mapped_paths.all (fun q => isCanonical q.2) = true :=
  ⟨new_isOk cwd f fs, fun st hst => new_canonical cwd f fs st hcanon hst⟩

/-- Witness for C7: a concrete configuration succeeds with canonical
stored paths, and turning one mapped target into a non-canonicalizable
path makes construction fail. -/
theorem c7_construction_witness :
    exceptIsOk (ServntState.new cwdW fileW7 fsCanonOnly) = true
    ∧ isCanonical stW7.full_base_path = true
    ∧ exceptIsOk (ServntState.new cwdW
        { fileW7 with
          paths := { base := "base", mapped := [("/m", "../escape")] } }
        fsCanonOnly) = false := by
  have h := c7_construction cwdW fileW7 fsCanonOnly fsCanonOnly_canonical
  have h2 := c7_construction cwdW
    { fileW7 with
      paths := { base := "base", mapped := [("/m", "../escape")] } }
    fsCanonOnly fsCanonOnly_canonical
  refine ⟨?_, (h.2 stW7 (by decide)).1, ?_⟩
  · rw [h.1]
    decide
  · rw [h2.1]
    decide

/-! ### Decomposing the segments of an extended path (claim C5) -/

theorem cons_headD_tail {α : Type} (l : List α) (h : l ≠ []) (d : α) :
    l.headD d :: l.tail = l := by
  cases l with
  | nil => exact absurd rfl h
  | cons x t => rfl

theorem dropLast_concat_getLastD {α : Type} (l : List α) (d : α)
    (h : l ≠ []) : l.dropLast ++ [l.getLastD d] = l := by
  induction l generalizing d with
  | nil => exact absurd rfl h
  | cons x t ih =>
    cases t with
    | nil => rfl
    | cons y t' => exact congrArg (x :: ·) (ih x (by simp))

/-- Splitting a concatenation into raw segments: the last raw segment of
the left part glues onto the first raw segment of the right part. -/
theorem rawSegs_append (a b : List Char) :
    rawSegs (a ++ b) =
      (rawSegs a).dropLast ++
        ((rawSegs a).getLastD [] ++ (rawSegs b).headD []) ::
          (rawSegs b).tail := by
  induction a with
  | nil => exact (cons_headD_tail (rawSegs b) (rawSegs_ne_nil b) []).symm
  | cons c a' ih =>
    by_cases hc : c = '/'
    · subst hc
      rw [List.cons_append,
        show rawSegs ('/' :: (a' ++ b)) = [] :: rawSegs (a' ++ b) from by
          simp [rawSegs],
        show rawSegs ('/' :: a') = [] :: rawSegs a' from by simp [rawSegs],
        ih]
      cases hra : rawSegs a' with
      | nil => exact absurd hra (rawSegs_ne_nil a')
      | cons s rest => rfl
    · rw [List.cons_append]
      cases hra : rawSegs a' with
      | nil => exact absurd hra (rawSegs_ne_nil a')
      | cons s rest =>
        have hrab : rawSegs (a' ++ b) =
            (s :: rest).dropLast ++
              ((s :: rest).getLastD [] ++ (rawSegs b).headD []) ::
                (rawSegs b).tail := by
          rw [ih, hra]
        rw [show rawSegs (c :: (a' ++ b)) =
            match rawSegs (a' ++ b) with
            | [] => [[c]]
            | s :: rest => (c :: s) :: rest from by simp [rawSegs, hc],
          hrab,
          show rawSegs (c :: a') = (c :: s) :: rest from by
            simp [rawSegs, hc, hra]]
        cases rest with
        | nil => rfl
        | cons s₂ rest₂ => rfl


theorem rawSegs_cons_slash (cs : List Char) :
    rawSegs ('/' :: cs) = [] :: rawSegs cs := by
  simp [rawSegs]

theorem rawSegs_cons_ne (c : Char) (cs : List Char) (hc : c ≠ '/') :
    rawSegs (c :: cs) =
      match rawSegs cs with
      | [] => [[c]]
      | s :: rest => (c :: s) :: rest := by
  simp only [rawSegs, if_neg hc]

theorem rawSegs_head_cons (c : Char) (cs : List Char) (hc : c ≠ '/') :
    ∃ s rest, rawSegs (c :: cs) = (c :: s) :: rest := by
  cases hra : rawSegs cs with
  | nil => exact absurd hra (rawSegs_ne_nil _)
  | cons s rest =>
    refine ⟨s, rest, ?_⟩
    rw [rawSegs_cons_ne c cs hc, hra]

theorem rawSegs_eq_nil_single (cs : List Char) (h : rawSegs cs = [[]]) :
    cs = [] := by
  cases cs with
  | nil => rfl
  | cons c cs' =>
    by_cases hc : c = '/'
    · subst hc
      rw [rawSegs_cons_slash] at h
      injection h with h1 h2
      exact absurd h2 (rawSegs_ne_nil _)
    · obtain ⟨s, rest, hr⟩ := rawSegs_head_cons c cs' hc
      rw [hr] at h
      injection h with h1 h2
      exact absurd h1 (by simp)

/-- A nonempty chunk list not ending in a separator has a nonempty last
raw segment. -/
theorem rawSegs_getLastD_ne_nil (cs : List Char) (h0 : cs ≠ [])
    (h1 : cs.getLast? ≠ some '/') : (rawSegs cs).getLastD [] ≠ [] := by
  induction cs with
  | nil => exact absurd rfl h0
  | cons c cs' ih =>
    cases cs' with
    | nil =>
      have hc : c ≠ '/' := by
        intro hh
        exact h1 (by rw [hh]; rfl)
      rw [show rawSegs [c] = [[c]] from by
        rw [rawSegs_cons_ne c [] hc]; rfl]
      simp
    | cons c₂ cs'' =>
      have h1' : (c₂ :: cs'').getLast? ≠ some '/' := by
        rwa [List.getLast?_cons_cons] at h1
      have ih' := ih (by simp) h1'
      by_cases hc : c = '/'
      · subst hc
        rw [rawSegs_cons_slash]
        cases hra : rawSegs (c₂ :: cs'') with
        | nil => exact absurd hra (rawSegs_ne_nil _)
        | cons s rest =>
          rw [hra] at ih'
          exact ih'
      · cases hra : rawSegs (c₂ :: cs'') with
        | nil => exact absurd hra (rawSegs_ne_nil _)
        | cons s rest =>
          rw [rawSegs_cons_ne c (c₂ :: cs'') hc, hra]
          rw [hra] at ih'
          cases rest with
          | nil => simp
          | cons s₂ rest₂ => exact ih'

/-- When the last raw segment is ".", the string is "." itself or ends in
the two characters "/.". -/
theorem rawSegs_getLastD_dot (cs : List Char)
    (h : (rawSegs cs).getLastD [] = ['.']) :
    cs = ['.'] ∨ ['/', '.'] <:+ cs := by
  induction cs with
  | nil => simp [rawSegs] at h
  | cons c cs' ih =>
    by_cases hc : c = '/'
    · subst hc
      rw [rawSegs_cons_slash] at h
      cases hra : rawSegs cs' with
      | nil => exact absurd hra (rawSegs_ne_nil _)
      | cons s rest =>
        have h' : (rawSegs cs').getLastD [] = ['.'] := by
          rw [hra]
          rw [hra] at h
          exact h
        rcases ih h' with h2 | h2
        · rw [h2]
          exact Or.inr (by simp)
        · exact Or.inr (h2.trans (List.suffix_cons '/' cs'))
    · cases hra : rawSegs cs' with
      | nil => exact absurd hra (rawSegs_ne_nil _)
      | cons s rest =>
        rw [rawSegs_cons_ne c cs' hc, hra] at h
        cases rest with
        | nil =>
          simp at h
          obtain ⟨hc', hs⟩ := h
          subst hc'
          subst hs
          have hnil : cs' = [] := rawSegs_eq_nil_single cs' hra
          subst hnil
          exact Or.inl rfl
        | cons s₂ rest₂ =>
          have h' : (rawSegs cs').getLastD [] = ['.'] := by
            rw [hra]
            exact h
          rcases ih h' with h2 | h2
          · rw [h2] at hra
            rw [show rawSegs ['.'] = [['.']] from by decide] at hra
            injection hra with _ h3
            exact absurd h3.symm (by simp)
          · exact Or.inr (h2.trans (List.suffix_cons c cs'))

/-- A segment glued to a nonempty extension yields a different component:
the glued segment is strictly longer. -/
theorem mkComp_ne_glue (L H : List Char) (hH : H ≠ []) :
    mkComp L ≠ mkComp (L ++ H) := by
  have hlen : (L ++ H).length = L.length + H.length := List.length_append L H
  have hHpos : 0 < H.length := List.length_pos.mpr hH
  have hne : L ≠ L ++ H := by
    intro heq
    have hl := congrArg List.length heq
    rw [hlen] at hl
    omega
  unfold mkComp
  by_cases h1 : L = ['.', '.']
  · rw [if_pos h1]
    have h2 : L ++ H ≠ ['.', '.'] := by
      intro heq
      have hl := congrArg List.length heq
      rw [hlen, h1] at hl
      simp only [List.length_cons, List.length_nil] at hl
      omega
    rw [if_neg h2]
    simp
  · rw [if_neg h1]
    by_cases h2 : L ++ H = ['.', '.']
    · rw [if_pos h2]
      simp
    · rw [if_neg h2]
      simp only [ne_eq, Component.normal.injEq]
      intro heq
      injection heq with h3
      exact hne h3

theorem stripPrefixC_none (self pre : RPath) (h : ¬ pre <+: self) :
    stripPrefixC self pre = none := by
  cases hs : stripPrefixC self pre with
  | none => rfl
  | some r =>
    exact absurd ⟨r, ((stripPrefixC_eq_some_iff pre self r).mp hs).symm⟩ h

theorem parseComps_slash (X : List Char) :
    parseComps ('/' :: X) =
      Component.rootDir ::
        ((segsOf ('/' :: X)).filter (fun s => decide (s ≠ ['.']))).map
          mkComp := by
  unfold parseComps
  split
  · rfl
  · next hne => exact absurd rfl (hne X)

/-- The core of claim C5: when a prefix that neither ends in a separator
nor in a "." segment is extended by nonempty characters not starting with
a separator, the parsed prefix does not component-prefix the parsed
extension, so strip_prefix fails. -/
theorem stripPrefix_string_extension (P S : List Char)
    (hP : P.head? = some '/') (hlast : P.getLast? ≠ some '/')
    (hdot : ¬ (['/', '.'] <:+ P)) (hS : S ≠ []) (hSh : S.head? ≠ some '/') :
    stripPrefixC (parseComps (P ++ S)) (parseComps P) = none := by
  obtain ⟨P', hP'⟩ : ∃ P', P = '/' :: P' := by
    cases hpl : P with
    | nil => rw [hpl] at hP; exact absurd hP (by simp)
    | cons c cs =>
      rw [hpl] at hP
      exact ⟨cs, by rw [show c = '/' from by simpa using hP]⟩
  obtain ⟨c, S', hS'⟩ : ∃ c S', S = c :: S' ∧ c ≠ '/' := by
    cases hsl : S with
    | nil => exact absurd hsl hS
    | cons c cs =>
      refine ⟨c, cs, rfl, ?_⟩
      rw [hsl] at hSh
      intro hh
      exact hSh (by rw [hh]; rfl)
  obtain ⟨hS'', hc⟩ := hS'
  have hPne : P ≠ [] := by rw [hP']; simp
  -- the glued decomposition of the raw segments
  have hL1 : (rawSegs P).getLastD [] ≠ [] :=
    rawSegs_getLastD_ne_nil P hPne hlast
  have hL2 : (rawSegs P).getLastD [] ≠ ['.'] := by
    intro hh
    rcases rawSegs_getLastD_dot P hh with h2 | h2
    · rw [h2] at hP
      exact absurd hP (by simp)
    · exact hdot h2
  obtain ⟨s, rest, hhead⟩ := rawSegs_head_cons c S' hc
  have hH1 : (rawSegs S).headD [] ≠ [] := by
    rw [hS'', hhead]
    simp
  have happ := rawSegs_append P S
  -- segments of the extended string
  have hsegsPS : segsOf (P ++ S) =
      ((rawSegs P).dropLast.filter (fun s => decide (s ≠ []))) ++
        ((rawSegs P).getLastD [] ++ (rawSegs S).headD []) ::
          ((rawSegs S).tail.filter (fun s => decide (s ≠ []))) := by
    rw [segsOf, happ, List.filter_append]
    congr 1
    rw [List.filter_cons]
    rw [if_pos (by
      simp only [decide_eq_true_eq]
      intro hh
      exact hL1 (List.append_eq_nil.mp hh).1)]
  have hsegsP : segsOf P =
      ((rawSegs P).dropLast.filter (fun s => decide (s ≠ []))) ++
        [(rawSegs P).getLastD []] := by
    conv =>
      lhs
      rw [segsOf, show rawSegs P =
        (rawSegs P).dropLast ++ [(rawSegs P).getLastD []] from
        (dropLast_concat_getLastD (rawSegs P) [] (rawSegs_ne_nil P)).symm]
    rw [List.filter_append, List.filter_cons,
      if_pos (by simp only [decide_eq_true_eq]; exact hL1)]
    rfl
  -- both parses start with the root and share the leading components
  have hPS' : P ++ S = '/' :: (P' ++ S) := by rw [hP']; rfl
  have hLH : (rawSegs P).getLastD [] ++ (rawSegs S).headD [] ≠ ['.'] := by
    intro hh
    have hl := congrArg List.length hh
    rw [List.length_append] at hl
    have l1 : 0 < ((rawSegs P).getLastD []).length := List.length_pos.mpr hL1
    have l2 : 0 < ((rawSegs S).headD []).length := List.length_pos.mpr hH1
    simp only [List.length_cons, List.length_nil] at hl
    omega
  rw [hPS', parseComps_slash, ← hPS', hP', parseComps_slash, ← hP']
  rw [hsegsPS, hsegsP, List.filter_append, List.filter_append,
    List.filter_cons, if_pos (by simp only [decide_eq_true_eq]; exact hLH),
    List.filter_cons, if_pos (by simp only [decide_eq_true_eq]; exact hL2),
    List.map_append, List.map_append, List.map_cons]
  apply stripPrefixC_none
  simp only [List.cons_prefix_cons, true_and, List.map_cons, List.map_nil]
  rw [List.prefix_append_right_inj]
  simp only [List.cons_prefix_cons]
  intro hcontr
  exact mkComp_ne_glue _ _ hH1 hcontr.1

theorem rootedChars_head (p : String) : (rootedChars p).head? = some '/' := by
  unfold rootedChars
  split
  · next heq => rw [heq]; rfl
  · rfl

theorem mkComp_ne_cur (s : List Char) : mkComp s ≠ Component.curDir := by
  unfold mkComp
  split <;> simp

theorem dropHeadCur_of_ne (x : Component) (l : RPath)
    (h : x ≠ Component.curDir) : dropHeadCur (x :: l) = x :: l := by
  cases x with
  | curDir => exact absurd rfl h
  | rootDir => rfl
  | parentDir => rfl
  | normal s => rfl

theorem parseComps_rel (cs : List Char) (h : ∀ X, cs ≠ '/' :: X) :
    parseComps cs =
      match segsOf cs with
      | [] => []
      | s :: rest =>
        (if s = ['.'] then Component.curDir else mkComp s) ::
          ((rest.filter (fun s => decide (s ≠ ['.']))).map mkComp) := by
  unfold parseComps
  split
  · exact absurd rfl (h _)
  · rfl

/-- Prepending a single separator as characters is the same as joining
the parsed path onto the root, exactly the match_path of resolve_path. -/
theorem rooted_parse (p : String) :
    parseComps (rootedChars p) = joinC (parsePath "/") (parsePath p) := by
  have hslash : parsePath "/" = [Component.rootDir] := by decide
  unfold rootedChars
  split
  · next X heq =>
    rw [hslash]
    unfold parsePath
    rw [heq, parseComps_slash]
    unfold joinC
    exact (if_pos rfl).symm
  · next hne =>
    rw [hslash, parseComps_slash]
    unfold parsePath
    have hsegs : segsOf ('/' :: p.toList) = segsOf p.toList := by
      rw [segsOf, segsOf, rawSegs_cons_slash, List.filter_cons]
      rw [if_neg (by simp)]
    rw [hsegs, parseComps_rel p.toList (fun X hX => hne X hX)]
    cases hs : segsOf p.toList with
    | nil =>
      simp [joinC, dropHeadCur]
    | cons s rest =>
      show Component.rootDir ::
          List.map mkComp
            (List.filter (fun t => decide (t ≠ ['.'])) (s :: rest)) =
        joinC [Component.rootDir]
          ((if s = ['.'] then Component.curDir else mkComp s) ::
            List.map mkComp (List.filter (fun t => decide (t ≠ ['.'])) rest))
      by_cases hsd : s = ['.']
      · rw [List.filter_cons, if_neg (by simp [hsd]), if_pos hsd]
        unfold joinC
        rw [if_neg (by simp), if_neg (by simp)]
        rfl
      · rw [List.filter_cons,
          if_pos (by simp only [decide_eq_true_eq]; exact hsd), if_neg hsd]
        unfold joinC
        rw [if_neg (by simp [mkComp_ne_root s]), if_neg (by simp)]
        rw [dropHeadCur_of_ne _ _ (mkComp_ne_cur s)]
        rfl

/-- Counterexample to claim C5 as stated: the virtual path "a/.x"
(rooted "/a/.x") extends the configured key "/a/." by "x" with no
intervening separator, yet the mapping matches — the trailing "."
segment of the key is normalized away by component parsing, so the key's
components [root, "a"] do strip the rooted path — and resolution uses the
mapping instead of falling through to the base directory. -/
theorem c5_counterexample :
    rootedChars "a/.x" = "/a/.".toList ++ "x".toList
    ∧ "x".toList ≠ []
    ∧ "x".toList.head? ≠ some '/'
    ∧ "/a/.".toList.getLast? ≠ some '/'
    ∧ stripPrefixC (joinC (parsePath "/") (parsePath "a/.x"))
        (parsePath "/a/.") = some [Component.normal ".x"]
    ∧ (stWith [("/a/.", parsePath "/t")]).resolve_path fsOk "a/.x" =
        Except.ok (parsePath "/t/.x")
    ∧ (stWith []).resolve_path fsOk "a/.x" =
        Except.ok (parsePath "/srv/base/a/.x")
    ∧ parsePath "/t/.x" ≠ parsePath "/srv/base/a/.x" := by
  decide

/-- Claim C5 (amended): prefix matching is per path segment, not raw
string prefix — whenever the rooted virtual path literally extends a
configured key by nonempty characters that do not start with a
separator, and the key neither ends with a separator nor with a "."
segment, the key does not match, and resolution behaves exactly as if
that mapping were absent (falling through to the remaining mappings or
the base directory). -/
theorem c5_segment_matching {ε : Type} (st st' : ServntState)
    (fs : RPath → Except ε RPath) (p pre : String) (t : RPath)
    (l₁ l₂ : List (String × RPath)) (suff : List Char)
    (hext : rootedChars p = pre.toList ++ suff)
    (hsne : suff ≠ [])
    (hshead : suff.head? ≠ some '/')
    (hplast : pre.toList.getLast? ≠ some '/')
    (hpdot : ¬ (['/', '.'] <:+ pre.toList))
    (hm : st.mapped_paths = l₁ ++ (pre, t) :: l₂)
    (hm' : st' = { st with mapped_paths := l₁ ++ l₂ }) :
    stripPrefixC (joinC (parsePath "/") (parsePath p)) (parsePath pre) =
        none
    ∧ st.resolve_path fs p = st'.resolve_path fs p := by
  have hPne : pre.toList ≠ [] := by
    intro h0
    rw [h0, List.nil_append] at hext
    have hh := rootedChars_head p
    rw [hext] at hh
    exact hshead hh
  have hPhead : pre.toList.head? = some '/' := by
    have hh := rootedChars_head p
    rw [hext] at hh
    cases hpl : pre.toList with
    | nil => exact absurd hpl hPne
    | cons c cs =>
      rw [hpl] at hh
      rw [List.cons_append] at hh
      simpa using hh
  have hnone : stripPrefixC (joinC (parsePath "/") (parsePath p))
      (parsePath pre) = none := by
    rw [← rooted_parse p, hext]
    exact stripPrefix_string_extension pre.toList suff hPhead hplast hpdot
      hsne hshead
  exact ⟨hnone, resolve_skip st st' fs p pre t l₁ l₂ hm hm' hnone⟩

/-- Witness for C5 (amended): "/foobar.html" against the key "/foo" does
not match, and the mapping's presence does not change resolution. -/
theorem c5_segment_matching_witness :
    stripPrefixC (joinC (parsePath "/") (parsePath "foobar.html"))
        (parsePath "/foo") = none
    ∧ (stWith [("/foo", parsePath "/t")]).resolve_path fsOk "foobar.html" =
        (stWith []).resolve_path fsOk "foobar.html" :=
  c5_segment_matching (stWith [("/foo", parsePath "/t")]) (stWith []) fsOk
    "foobar.html" "/foo" (parsePath "/t") [] [] "bar.html".toList
    (by decide) (by decide) (by decide) (by decide) (by decide) rfl
    (by decide)
